import Mathlib

/-!
Verification of the flakc compiler core: the symbolic translator (`ast.rs`)
and the code generator (`gen.rs`), together with the lexer/parser
(`parser.rs`) where claims depend on concrete source programs.

The Rust source is shallowly embedded: `Vec<T>` becomes `List T`,
`BigInt` becomes `Int`, `usize`/`isize` become `Nat`/`Int` (no overflow is
relevant at the sizes the claims exercise), and the in-place mutators of
`ast.rs` become pure state-passing functions.  The code generator, which
writes program text through `write!`, is embedded as functions producing
`String`s (and, where the claims count individual emissions, `List String`
of the exact chunks written, in order).
-/

namespace Flakc

/-- `ValuePart` from `ast.rs`: the symbolic atoms of a linear expression. -/
inductive ValuePart where
  | curStackElem (n : Nat)
  | offStackElem (n : Nat)
  | curStackSize
  | offStackSize
  | loopResult (i : Nat)
deriving DecidableEq, Repr, Inhabited

/-- `Value` from `ast.rs`: a constant plus a list of (atom, coefficient)
terms.  `const_val: BigInt` is embedded as `Int`; coefficients `isize` as
`Int`. -/
structure Value where
  const_val : Int
  parts : List (ValuePart × Int)
deriving DecidableEq, Repr, Inhabited

/-- `Value::zero`. -/
def Value.zero : Value := { const_val := 0, parts := [] }

/-- `Value::negate`: flip the sign of the constant and all coefficients. -/
def Value.negate (v : Value) : Value :=
  { const_val := v.const_val * -1, parts := v.parts.map (fun pc => (pc.1, pc.2 * -1)) }

/-- `Value::add_const`. -/
def Value.add_const (v : Value) (other : Int) : Value :=
  { v with const_val := v.const_val + other }

/-- `Vec::swap_remove(i)`: remove element `i`, replacing it by the last
element (the vector must be nonempty; on the last index it just pops). -/
def swapRemove {α : Type} [Inhabited α] (l : List α) (i : Nat) : List α :=
  (l.set i (l.getLast?.getD default)).dropLast

/-- `Value::add_part_n`: scan for the first term with this atom; if found,
add `n` to its coefficient, `swap_remove`-ing the term if the sum is zero;
otherwise push `(part, n)` at the end. -/
def Value.add_part_n (v : Value) (part : ValuePart) (n : Int) : Value :=
  match v.parts.findIdx? (fun pc => pc.1 = part) with
  | none => { v with parts := v.parts ++ [(part, n)] }
  | some i =>
    let c := (v.parts.getD i (part, 0)).2 + n
    if c = 0 then { v with parts := swapRemove v.parts i }
    else { v with parts := v.parts.set i (part, c) }

/-- `Value::add_part`. -/
def Value.add_part (v : Value) (part : ValuePart) : Value :=
  v.add_part_n part 1

/-- `Value::add`: add the constants, then `add_part_n` each of `other`'s
terms in order. -/
def Value.add (v other : Value) : Value :=
  other.parts.foldl (fun acc pc => acc.add_part_n pc.1 pc.2)
    { v with const_val := v.const_val + other.const_val }

/-- `StackEffect` from `ast.rs`: one batch of deferred stack operations. -/
structure StackEffect where
  cur_pop : Nat
  cur_push : List Value
  off_pop : Nat
  off_push : List Value
  toggle : Bool
deriving DecidableEq, Repr, Inhabited

/-- `StackEffect::new`. -/
def StackEffect.new : StackEffect :=
  { cur_pop := 0, cur_push := [], off_pop := 0, off_push := [], toggle := false }

/-- `StackEffect::is_empty`: the `matches!` pattern requires both pop
counts zero, both queues empty, and `toggle: false`. -/
def StackEffect.is_empty (se : StackEffect) : Bool :=
  se.cur_pop == 0 && se.cur_push.isEmpty && se.off_pop == 0 && se.off_push.isEmpty
    && !se.toggle

/-- Read half of `StackEffect::pop_push`: the pop counter of the side
selected by the toggle flag. -/
def StackEffect.pp_pop (se : StackEffect) : Nat :=
  if !se.toggle then se.cur_pop else se.off_pop

/-- Read half of `StackEffect::pop_push`: the push queue of the side
selected by the toggle flag. -/
def StackEffect.pp_push (se : StackEffect) : List Value :=
  if !se.toggle then se.cur_push else se.off_push

/-- Write-back of `StackEffect::pop_push`: store the pop counter and push
queue of the side selected by the toggle flag. -/
def StackEffect.set_pp (se : StackEffect) (pop : Nat) (push : List Value) : StackEffect :=
  if !se.toggle then { se with cur_pop := pop, cur_push := push }
  else { se with off_pop := pop, off_push := push }

/-- `StackEffect::stack_elem`. -/
def StackEffect.stack_elem (se : StackEffect) (t : Nat) : ValuePart :=
  if !se.toggle then ValuePart.curStackElem t else ValuePart.offStackElem t

/-- `StackEffect::stack_size`. -/
def StackEffect.stack_size (se : StackEffect) : ValuePart :=
  if !se.toggle then ValuePart.curStackSize else ValuePart.offStackSize

/-- `Inst` from `ast.rs` (an `Ast` is a `List Inst`). -/
inductive Inst where
  | one
  | size
  | pop
  | toggle
  | push (a : List Inst)
  | negate (a : List Inst)
  | loop (a : List Inst)
  | exec (a : List Inst)
deriving Repr, Inhabited

mutual
/-- `Effect` from `ast.rs`. -/
inductive Effect where
  | stack (se : StackEffect)
  | loop (e : Expr)
deriving Repr

/-- `Expr` from `ast.rs`: an effect log plus an overall symbolic result. -/
inductive Expr where
  | mk (effects : List Effect) (result : Value)
deriving Repr
end

/-- Accessor for the effect log of an `Expr`. -/
def Expr.effects : Expr → List Effect
  | .mk es _ => es

/-- Accessor for the result of an `Expr`. -/
def Expr.result : Expr → Value
  | .mk _ r => r

/-- `push_effect` from `ast.rs`: append the batch to the log unless it is
empty. -/
def push_effect (effects : List Effect) (effect : StackEffect) : List Effect :=
  if !effect.is_empty then effects ++ [Effect.stack effect] else effects

/-- `translate_with_effects` from `ast.rs`, with the mutable state
(`result`, `effects`, `cur_effect`) threaded explicitly.  Processes the
instruction list left to right. -/
def tweGo : List Inst → Value → List Effect → StackEffect →
    Value × List Effect × StackEffect
  | [], r, es, ce => (r, es, ce)
  | .one :: rest, r, es, ce => tweGo rest (r.add_const 1) es ce
  | .size :: rest, r, es, ce =>
    let r1 := (r.add_part ce.stack_size).add_const
      ((ce.pp_push.length : Int) - (ce.pp_pop : Int))
    tweGo rest r1 es ce
  | .pop :: rest, r, es, ce =>
    if ce.pp_push.isEmpty then
      tweGo rest (r.add_part (ce.stack_elem ce.pp_pop)) es
        (ce.set_pp (ce.pp_pop + 1) ce.pp_push)
    else
      tweGo rest (r.add (ce.pp_push.getLast?.getD Value.zero)) es
        (ce.set_pp ce.pp_pop ce.pp_push.dropLast)
  | .toggle :: rest, r, es, ce => tweGo rest r es { ce with toggle := !ce.toggle }
  | .push a :: rest, r, es, ce =>
    let (s, es1, ce1) := tweGo a Value.zero es ce
    tweGo rest (r.add s) es1 (ce1.set_pp ce1.pp_pop (ce1.pp_push ++ [s]))
  | .negate a :: rest, r, es, ce =>
    let (s, es1, ce1) := tweGo a Value.zero es ce
    tweGo rest (r.add s.negate) es1 ce1
  | .loop a :: rest, r, es, ce =>
    let es1 := push_effect es ce
    let (br, bes, bce) := tweGo a Value.zero [] StackEffect.new
    let es2 := es1 ++ [Effect.loop (Expr.mk (push_effect bes bce) br)]
    tweGo rest (r.add_part (ValuePart.loopResult (es2.length - 1))) es2 StackEffect.new
  | .exec a :: rest, r, es, ce =>
    let (_, es1, ce1) := tweGo a Value.zero es ce
    tweGo rest r es1 ce1

/-- `translate` from `ast.rs`. -/
def translate (ast : List Inst) : Expr :=
  let (r, es, ce) := tweGo ast Value.zero [] StackEffect.new
  Expr.mk (push_effect es ce) r

/-! ## The code generator (`gen.rs`), embedded as string emission

Every `write!` call of `gen.rs` becomes a string appended in the same
order.  Where a claim counts individual emissions (the stack swap), the
chunks of one batch are kept as a `List String` whose concatenation is the
emitted text. -/

/-- The atom rendering of `compile_value`'s `match part`. -/
def compileValuePart : ValuePart → String
  | .curStackElem n => "s[p-" ++ toString (n + 1) ++ "]"
  | .offStackElem n => "o[d-" ++ toString (n + 1) ++ "]"
  | .curStackSize => "p"
  | .offStackSize => "d"
  | .loopResult i => "r" ++ toString i

/-- `compile_value` from `gen.rs`. -/
def compileValue (v : Value) : String :=
  (v.parts.foldl
    (fun acc pm =>
      acc ++ "+" ++ compileValuePart pm.1 ++
        (if pm.2 ≠ 1 then "*" ++ toString pm.2 else ""))
    ("(" ++ toString v.const_val)) ++ ")"

/-- The text of the stack-pair swap emitted for a toggled batch
(`compile_effects`, `toggle` case). -/
def swapStr : String :=
  "\x7bsize_t t=p;p=d;d=t;size_t g=c;c=v;v=g;l*h=s;s=o;o=h;\x7d"

/-- The growth guard written by `compile_single_stack_effect` when a side
has net positive offset: at runtime it doubles the capacity (once) if the
new top would exceed it. -/
def reallocChunk (stack top cap : String) (offset : Int) : String :=
  "if(" ++ top ++ "+" ++ toString offset ++ ">" ++ cap ++ ")\x7b" ++ cap ++ "*=2;"
    ++ stack ++ "=realloc(" ++ stack ++ "," ++ cap ++ "*sizeof(l));\x7d"

/-- `compile_single_stack_effect` from `gen.rs`: the chunks it writes, in
order (optional realloc guard, one temporary declaration per queued value,
one slot write per queued value), together with the returned `offset`. -/
def csseChunks (pop : Nat) (push : List Value) (is_off : Bool) (effect_index : Nat) :
    List String × Int :=
  let stack := if !is_off then "s" else "o"
  let top := if !is_off then "p" else "d"
  let cap := if !is_off then "c" else "v"
  let offset : Int := (push.length : Int) - (pop : Int)
  let realloc := if offset > 0 then [reallocChunk stack top cap offset] else []
  let temps := push.enum.map
    (fun ie => "l t" ++ toString ie.1 ++ "_" ++ toString effect_index ++ "="
      ++ compileValue ie.2 ++ ";")
  let writes := (List.range push.length).map
    (fun i => stack ++ "[" ++ top ++ "+" ++ toString ((i : Int) - (pop : Int)) ++ "]=t"
      ++ toString i ++ "_" ++ toString effect_index ++ ";")
  (realloc ++ temps ++ writes, offset)

/-- The chunks `compile_effects` writes for one `Effect::Stack` batch at
log index `i`: both sides (cur then off), the pointer adjustments, and the
swap when `toggle` is set. -/
def batchChunks (i : Nat) (se : StackEffect) : List String :=
  let c1 := csseChunks se.cur_pop se.cur_push false (i * 2)
  let c2 := csseChunks se.off_pop se.off_push true (i * 2 + 1)
  c1.1 ++ c2.1
    ++ (if c1.2 ≠ 0 then ["p+=" ++ toString c1.2 ++ ";"] else [])
    ++ (if c2.2 ≠ 0 then ["d+=" ++ toString c2.2 ++ ";"] else [])
    ++ (if se.toggle then [swapStr] else [])

/-- `compile_effects` from `gen.rs`, carrying the enumeration index `i`;
a nested `Effect::Loop` restarts the index at 0 for its own log. -/
def compileEffectsGo : Nat → List Effect → String
  | _, [] => ""
  | i, .stack se :: rest => String.join (batchChunks i se) ++ compileEffectsGo (i + 1) rest
  | i, .loop (.mk effs res) :: rest =>
    "l r" ++ toString i ++ "=0;while(p&&s[p-1])\x7b"
      ++ "r" ++ toString i ++ "+=" ++ compileValue res ++ ";"
      ++ compileEffectsGo 0 effs ++ "\x7d"
      ++ compileEffectsGo (i + 1) rest

/-- `compile_effects(b, e)` from `gen.rs` (the text it writes). -/
def compileEffects (e : List Effect) : String := compileEffectsGo 0 e

/-- The final print loop of `compile` from `gen.rs`, written once after
the effects: `for(size_t i=p-1;i!=-1;i--)printf("%lld\n", s[i]);`. -/
def printLoopText : String :=
  "for(size_t i=p-1;i!=-1;i--)printf(\"%lld\\n\", s[i]);\x7d"

/-! ## The lexer and parser (`parser.rs`)

Only the token stream and the resulting tree are modelled; `report` and
the warning messages write to stderr and carry no information into the
output, so they are dropped (the flags driving them are kept). -/

/-- `DelimType` from `parser.rs`. -/
inductive DelimType where
  | paren
  | brace
  | bracket
  | angle
deriving DecidableEq, Repr, Inhabited

/-- `TokenType` from `parser.rs`. -/
inductive TokenType where
  | open_ (d : DelimType)
  | close (d : DelimType)
  | junk
deriving DecidableEq, Repr, Inhabited

/-- `Token` from `parser.rs`. -/
structure Token where
  ty : TokenType
  pos : Nat
deriving DecidableEq, Repr, Inhabited

/-- The mutable state of `lex`'s loop. -/
structure LexSt where
  ts : List Token
  line_is_false_comment : Bool
  line_is_comment : Bool
  last_was_hash : Bool
  block_comment_level : Nat
deriving Repr

/-- One iteration of `lex`'s `for (pos, c)` loop. -/
def lexStep (st : LexSt) (pos : Nat) (c : Char) : LexSt :=
  if st.line_is_comment then
    let st :=
      if st.last_was_hash && c = '{' then
        { st with line_is_comment := false, block_comment_level := 1 }
      else st
    let st := if c = '\n' then { st with line_is_comment := false } else st
    { st with last_was_hash := false }
  else if st.block_comment_level > 0 then
    if c = '{' then { st with block_comment_level := st.block_comment_level + 1 }
    else if c = '}' then { st with block_comment_level := st.block_comment_level - 1 }
    else st
  else
    let emit (ty : TokenType) : LexSt :=
      let st := { st with ts := st.ts ++ [Token.mk ty pos] }
      if st.line_is_false_comment then { st with line_is_false_comment := false } else st
    match c with
    | '(' => emit (.open_ .paren)
    | ')' => emit (.close .paren)
    | '{' => emit (.open_ .brace)
    | '}' => emit (.close .brace)
    | '[' => emit (.open_ .bracket)
    | ']' => emit (.close .bracket)
    | '<' => emit (.open_ .angle)
    | '>' => emit (.close .angle)
    | '#' =>
      let st := { st with last_was_hash := true, line_is_comment := true }
      if st.line_is_false_comment then { st with line_is_false_comment := false } else st
    | _ =>
      let st :=
        if c = '\n' then { st with line_is_false_comment := false }
        else if !c.isWhitespace then { st with line_is_false_comment := true }
        else st
      if (st.ts.getLast?.map Token.ty) = some .junk then st
      else { st with ts := st.ts ++ [Token.mk .junk pos] }

/-- `lex` from `parser.rs`: `none` when a block comment is left open. -/
def lex (s : String) : Option (List Token) :=
  let st := (s.data.enum.foldl (fun st pc => lexStep st pc.1 pc.2)
    { ts := [], line_is_false_comment := false, line_is_comment := false,
      last_was_hash := false, block_comment_level := 0 })
  if st.block_comment_level > 0 then none else some st.ts

/-- The nilad produced for each bracket kind (`parse_tokens`). -/
def nilad : DelimType → Inst
  | .paren => .one
  | .brace => .pop
  | .bracket => .size
  | .angle => .toggle

/-- The compound instruction produced for each bracket kind
(`parse_tokens`). -/
def compound : DelimType → List Inst → Inst
  | .paren, a => .push a
  | .brace, a => .loop a
  | .bracket, a => .negate a
  | .angle, a => .exec a

/-- `parse_tokens` from `parser.rs`, fuelled (each recursive call strictly
shortens the token list, so `length + 1` fuel always suffices).  Returns
the parsed sequence together with the unconsumed tokens; `none` models the
fatal `report`-and-return-`None` paths. -/
def parseToks : Nat → List Token → Option (List Inst × List Token)
  | 0, _ => none
  | _ + 1, [] => some ([], [])
  | fuel + 1, t :: rest =>
    match t.ty with
    | .junk => parseToks fuel rest
    | .close _ => some ([], t :: rest)
    | .open_ d =>
      let niladTail : Option (List Token) :=
        match rest with
        | t1 :: t2 :: rest2 =>
          if t1.ty = .junk ∧ t2.ty = .close d then some rest2
          else if t1.ty = .close d then some (t2 :: rest2)
          else none
        | [t1] => if t1.ty = .close d then some [] else none
        | [] => none
      match niladTail with
      | some tail =>
        match parseToks fuel tail with
        | some (a, ts') => some (nilad d :: a, ts')
        | none => none
      | none =>
        match parseToks fuel rest with
        | none => none
        | some (ast, ts') =>
          match ts' with
          | [] => none
          | u :: us =>
            let al : TokenType × Nat :=
              if u.ty = .junk then
                match us with
                | u2 :: _ => (u2.ty, 2)
                | [] => (u.ty, 1)
              else (u.ty, 1)
            if al.1 = .close d then
              match parseToks fuel (ts'.drop al.2) with
              | some (a, ts'') => some (compound d ast :: a, ts'')
              | none => none
            else none

/-- `parse` from `parser.rs`: lex, parse, and reject leftover tokens. -/
def parse (s : String) : Option (List Inst) :=
  match lex s with
  | none => none
  | some ts =>
    match parseToks (ts.length + 1) ts with
    | some (a, []) => some a
    | _ => none

/-! ## Runtime semantics of the emitted program

The generated C program owns two `long long` arrays `s` (active) and `o`
(inactive) with tops `p` and `d`.  States model the arrays as total
functions `Nat → Int`.  Loop accumulators `r{i}` are modelled by an
environment indexed by the effect-log position; this matches the emitted
code's name resolution for programs in which a loop body's result carries
no `LoopResult` atoms of its own scope (the name-capture situation for
nested loops is treated separately, at the generated-text level). -/

/-- Runtime state of the generated program. -/
structure RState where
  s : Nat → Int
  p : Nat
  o : Nat → Int
  d : Nat

/-- Pointwise update of an array. -/
def upd (f : Nat → Int) (i : Nat) (x : Int) : Nat → Int :=
  fun j => if j = i then x else f j

/-- The runtime value of one atom, per `compile_value`'s rendering:
`CurStackElem n` reads `s[p-(n+1)]`, etc. -/
def atomVal (env : Nat → Int) (st : RState) : ValuePart → Int
  | .curStackElem n => st.s (st.p - (n + 1))
  | .offStackElem n => st.o (st.d - (n + 1))
  | .curStackSize => (st.p : Int)
  | .offStackSize => (st.d : Int)
  | .loopResult i => env i

/-- The runtime value of a compiled `Value` expression. -/
def evalValue (env : Nat → Int) (st : RState) (v : Value) : Int :=
  v.parts.foldl (fun acc pm => acc + atomVal env st pm.1 * pm.2) v.const_val

/-- The slot writes of one side of a batch: temporary `i` is stored at
`top + i - pop` (`compile_single_stack_effect`'s second loop). -/
def writeSlots (f : Nat → Int) (top pop : Nat) (ts : List Int) : Nat → Int :=
  ts.enum.foldl (fun g it => upd g (((top : Int) + (it.1 : Int) - (pop : Int)).toNat) it.2) f

/-- The new top pointer of a side after its offset is applied. -/
def newTop (top : Nat) (pushLen pop : Nat) : Nat :=
  ((top : Int) + ((pushLen : Int) - (pop : Int))).toNat

/-- Runtime effect of one batch as the generator actually orders it: the
cur side's temporaries are evaluated and written, *then* the off side's
temporaries are evaluated (against memory that already contains the cur
side's writes) and written; finally the pointers move and a toggled batch
swaps the two stacks. -/
def applyBatchCode (env : Nat → Int) (se : StackEffect) (st : RState) : RState :=
  let tc := se.cur_push.map (evalValue env st)
  let st1 : RState := { st with s := writeSlots st.s st.p se.cur_pop tc }
  let tos := se.off_push.map (evalValue env st1)
  let st2 : RState := { st1 with o := writeSlots st1.o st1.d se.off_pop tos }
  let st3 : RState := { st2 with p := newTop st.p se.cur_push.length se.cur_pop,
                                 d := newTop st.d se.off_push.length se.off_pop }
  if se.toggle then { s := st3.o, p := st3.d, o := st3.s, d := st3.p } else st3

/-- Modelled from the spec: the behaviour §4.3 step 3 prescribes for a
batch — *every* queued value (both sides) is evaluated against pre-batch
memory before any write of the batch lands.  Differs from
`applyBatchCode` only in the state against which the off side's
temporaries are evaluated. -/
def applyBatchPre (env : Nat → Int) (se : StackEffect) (st : RState) : RState :=
  let tc := se.cur_push.map (evalValue env st)
  let tos := se.off_push.map (evalValue env st)
  let st1 : RState := { st with s := writeSlots st.s st.p se.cur_pop tc }
  let st2 : RState := { st1 with o := writeSlots st1.o st1.d se.off_pop tos }
  let st3 : RState := { st2 with p := newTop st.p se.cur_push.length se.cur_pop,
                                 d := newTop st.d se.off_push.length se.off_pop }
  if se.toggle then { s := st3.o, p := st3.d, o := st3.s, d := st3.p } else st3

mutual
/-- Execution of a compiled effect list (`compile_effects` output), with
an iteration-fuel bound for the emitted `while` loops; `none` means the
fuel ran out, i.e. the program has not finished within `fuel` iterations
of any one loop. -/
def execEffs : Nat → (Nat → Int) → Nat → List Effect → RState → Option RState
  | _, _, _, [], st => some st
  | fuel, env, i, .stack se :: rest, st =>
    execEffs fuel env (i + 1) rest (applyBatchCode env se st)
  | fuel, env, i, .loop ex :: rest, st =>
    match execLoop fuel env i 0 ex st with
    | none => none
    | some (st', acc) => execEffs fuel (upd env i acc) (i + 1) rest st'

/-- The emitted `while(p&&s[p-1])` loop at log index `i`: each iteration
first adds the body's result to the accumulator, then runs the body's
effects. -/
def execLoop : Nat → (Nat → Int) → Nat → Int → Expr → RState → Option (RState × Int)
  | 0, _, _, _, _, _ => none
  | fuel + 1, env, i, acc, .mk effs res, st =>
    if st.p ≠ 0 ∧ st.s (st.p - 1) ≠ 0 then
      let acc' := acc + evalValue (upd env i acc) st res
      match execEffs fuel (upd env i acc') 0 effs st with
      | none => none
      | some st2 => execLoop fuel env i acc' (.mk effs res) st2
    else some (st, acc)
end

/-- The capacity left by the emitted growth guard
`if(top+offset>cap){cap*=2;…}` when a side must make room for `offset`
net new elements (`compile_single_stack_effect`, executed at runtime with
the side's current top and capacity). -/
def grownCap (top cap : Nat) (offset : Int) : Nat :=
  if (top : Int) + offset > (cap : Int) then cap * 2 else cap

/-- `size_t` arithmetic modulus of the emitted program's print loop. -/
def W64 : Nat := 2 ^ 64

/-- The emitted print loop `for(size_t i=p-1;i!=-1;i--)printf(…,s[i]);`
under `size_t` (mod `2^64`) arithmetic: the values printed, in order,
starting from index `(p-1) mod 2^64` and stopping when the index equals
`2^64 - 1`.  The fuel bounds the number of lines; `p` suffices. -/
def printLoopGo (s : List Int) : Nat → Nat → List Int
  | _, 0 => []
  | i, fuel + 1 =>
    if i = W64 - 1 then [] else s.getD i 0 :: printLoopGo s ((i + (W64 - 1)) % W64) fuel

/-- The lines printed by the emitted epilogue for a final active stack
`s` (base at index 0) of height `p`. -/
def printLoop (s : List Int) (p : Nat) : List Int :=
  printLoopGo s ((p + (W64 - 1)) % W64) p

/-! ## Stated properties -/

/-- The canonical-form invariant of §3: no atom appears in two terms and
no coefficient is zero. -/
def Canonical (v : Value) : Prop :=
  (v.parts.map Prod.fst).Nodup ∧ ∀ pc ∈ v.parts, pc.2 ≠ 0

instance (v : Value) : Decidable (Canonical v) := by
  unfold Canonical; infer_instance

/-- One application of a `Value` mutator (§4.2): `negate`, `addConstant`,
`addTerm` or `merge`. -/
inductive Mut where
  | neg
  | addConst (n : Int)
  | addTerm (p : ValuePart) (n : Int)
  | merge (w : Value)

/-- Apply one mutator to a value. -/
def applyMut (v : Value) : Mut → Value
  | .neg => v.negate
  | .addConst n => v.add_const n
  | .addTerm p n => v.add_part_n p n
  | .merge w => v.add w

/-- Side condition under which a mutator keeps values canonical:
`addTerm` must carry a nonzero coefficient, `merge` a canonical
argument. -/
def MutOK : Mut → Prop
  | .addTerm _ n => n ≠ 0
  | .merge w => Canonical w
  | _ => True

/-- Whether log entry `i` exists and is a `LoopEffect`. -/
def isLoopAt (es : List Effect) (i : Nat) : Bool :=
  match es[i]? with
  | some (.loop _) => true
  | _ => false

/-- Whether an atom may occur at a point from which only log positions
before `bound` are visible: a `LoopResult i` needs `i < bound` and a
`LoopEffect` at position `i` of the log. -/
def atomOK (bound : Nat) (es : List Effect) : ValuePart → Bool
  | .loopResult i => decide (i < bound) && isLoopAt es i
  | _ => true

/-- All atoms of a value are visible below `bound`. -/
def vOK (bound : Nat) (es : List Effect) (v : Value) : Bool :=
  v.parts.all (fun pc => atomOK bound es pc.1)

/-- Both queues of an open batch only hold values whose atoms point at
loop effects already in the log. -/
def ceOK (es : List Effect) (ce : StackEffect) : Bool :=
  ce.cur_push.all (vOK es.length es) && ce.off_push.all (vOK es.length es)

mutual
/-- The log part of `wfExpr`: the values queued in the batch at position
`j` may only reference loop effects at positions before `j` (`full` is
the whole log being checked). -/
def wfEffs (full : List Effect) : Nat → List Effect → Bool
  | _, [] => true
  | j, .stack se :: rest =>
    se.cur_push.all (vOK j full) && se.off_push.all (vOK j full) && wfEffs full (j + 1) rest
  | j, .loop ex :: rest => wfExpr ex && wfEffs full (j + 1) rest

/-- Well-formedness of a `SubExpr`: every `LoopResult i` atom in the
result points at a `LoopEffect` at a valid index `i` of this same log;
every such atom inside a queued push value of the batch at position `j`
additionally satisfies `i < j`; and the same holds recursively inside
every nested loop body for its own log. -/
def wfExpr : Expr → Bool
  | .mk es r => wfEffs es 0 es && vOK es.length es r
end

/-- No `Effect::Stack` entry of the log (recursively, in nested loop
bodies too) is an empty batch. -/
def noEmptyEffs : List Effect → Bool
  | [] => true
  | .stack se :: rest => !se.is_empty && noEmptyEffs rest
  | .loop (.mk effs _) :: rest => noEmptyEffs effs && noEmptyEffs rest

/-- `noEmptyEffs` on an `Expr`'s log. -/
def noEmptyExpr : Expr → Bool
  | .mk es _ => noEmptyEffs es

/-- Number of `ToggleStack` instructions a sequence feeds into the open
batch (recursing into `Push`/`Negate`/`Discard` groups, which share the
batch). -/
def countToggles : List Inst → Nat
  | [] => 0
  | .one :: rest => countToggles rest
  | .size :: rest => countToggles rest
  | .pop :: rest => countToggles rest
  | .toggle :: rest => 1 + countToggles rest
  | .push a :: rest => countToggles a + countToggles rest
  | .negate a :: rest => countToggles a + countToggles rest
  | .loop _ :: rest => countToggles rest
  | .exec a :: rest => countToggles a + countToggles rest

/-- A sequence with no `Loop` anywhere: all its instructions are
processed within one open batch. -/
def noLoop : List Inst → Bool
  | [] => true
  | .one :: rest => noLoop rest
  | .size :: rest => noLoop rest
  | .pop :: rest => noLoop rest
  | .toggle :: rest => noLoop rest
  | .loop _ :: _ => false
  | .push a :: rest => noLoop a && noLoop rest
  | .negate a :: rest => noLoop a && noLoop rest
  | .exec a :: rest => noLoop a && noLoop rest

instance : (m : Mut) → Decidable (MutOK m) := fun m => by
  unfold MutOK; cases m <;> infer_instance

/-! ## Helper lemmas -/

@[simp]
theorem pp_push_set_pp (ce : StackEffect) (p : Nat) (q : List Value) :
    (ce.set_pp p q).pp_push = q := by
  unfold StackEffect.set_pp StackEffect.pp_push
  cases h : ce.toggle <;> simp [h]

@[simp]
theorem pp_pop_set_pp (ce : StackEffect) (p : Nat) (q : List Value) :
    (ce.set_pp p q).pp_pop = p := by
  unfold StackEffect.set_pp StackEffect.pp_pop
  cases h : ce.toggle <;> simp [h]

@[simp]
theorem toggle_set_pp (ce : StackEffect) (p : Nat) (q : List Value) :
    (ce.set_pp p q).toggle = ce.toggle := by
  unfold StackEffect.set_pp
  cases h : ce.toggle <;> simp [h]

theorem set_pp_set_pp (ce : StackEffect) (p q : Nat) (a b : List Value) :
    (ce.set_pp p a).set_pp q b = ce.set_pp q b := by
  unfold StackEffect.set_pp
  cases h : ce.toggle <;> simp [h]

theorem set_pp_self (ce : StackEffect) : ce.set_pp ce.pp_pop ce.pp_push = ce := by
  cases ce with
  | mk a b c d t =>
    cases t <;> simp [StackEffect.set_pp, StackEffect.pp_pop, StackEffect.pp_push]

/-- C4 (amended): translating `Push(X); Pop` is indistinguishable, on the
effect log and on the open batch, from translating `X` alone: the pair
itself is a net no-op on the batch (though `X`'s own batch mutations
persist), while the running sum gains `X`'s result twice. -/
theorem push_pop_pair_cancels (X : List Inst) (r : Value) (es : List Effect)
    (ce : StackEffect) :
    tweGo [Inst.push X, Inst.pop] r es ce =
      ((r.add (tweGo X Value.zero es ce).1).add (tweGo X Value.zero es ce).1,
        (tweGo X Value.zero es ce).2.1, (tweGo X Value.zero es ce).2.2) := by
  rcases hX : tweGo X Value.zero es ce with ⟨s, es1, ce1⟩
  simp only [tweGo, hX]
  have hne : (ce1.pp_push ++ [s]).isEmpty = false := by
    simp [List.isEmpty_iff]
  simp only [pp_push_set_pp, pp_pop_set_pp, hne, Bool.false_eq_true, if_false,
    List.getLast?_concat, Option.getD_some, List.dropLast_concat, set_pp_set_pp,
    set_pp_self]

/-- C4 (counterexample): for `X = [Pop]`, translating `Push(X); Pop` from
a fresh batch leaves the active pop count at 1, not at its value 0 from
before the pair — `X`'s own batch mutation survives, so the pair is not a
no-op relative to the state *before* the pair. -/
theorem push_pop_pair_not_batch_identity :
    (tweGo [Inst.push [Inst.pop], Inst.pop] Value.zero [] StackEffect.new).2.2.cur_pop = 1
    ∧ StackEffect.new.cur_pop = 0 := by
  constructor
  · simp [tweGo, StackEffect.new, Value.zero, StackEffect.pp_push, StackEffect.pp_pop,
      StackEffect.set_pp, StackEffect.stack_elem, Value.add_part, Value.add_part_n,
      Value.add]
  · rfl

/-- C2: evaluated at a batch with 2049 queued pushes on an active side
with top 0 and capacity 1024 (e.g. the source `(())` repeated 2049 times,
run with no arguments), the emitted growth guard — which doubles the
capacity exactly once — leaves capacity 2048, strictly below the required
`oldTop + k = 2049`, so the claimed bound `capacity' ≥ oldTop + k` fails
for `k` beyond the current capacity. -/
theorem growth_guard_single_doubling_insufficient :
    grownCap 0 1024 2049 = 2048
    ∧ 2048 < 0 + 2049
    ∧ reallocChunk "s" "p" "c" 2049
        = "if(p+2049>c)\x7bc*=2;s=realloc(s,c*sizeof(l));\x7d" := by
  exact ⟨by decide, by decide, rfl⟩

/-- C3: for the source `{{{}}}` (a loop whose body is a loop popping the
stack), the inner loop of the body scope is also named `r0`, and the
enclosing `r0+=(0+r0);` — the addition of the body's result, whose
`LoopResult 0` atom should read the *body* scope's accumulator — is
emitted *before* the body's own `l r0=0;` declaration; under C
declaration-point scoping that occurrence therefore reads the outer
loop's accumulator, not the body scope's one. -/
theorem nested_loop_accumulator_name_capture :
    parse "\x7b\x7b\x7b\x7d\x7d\x7d" = some [Inst.loop [Inst.loop [Inst.pop]]]
    ∧ translate [Inst.loop [Inst.loop [Inst.pop]]]
      = Expr.mk
          [Effect.loop (Expr.mk
            [Effect.loop (Expr.mk
              [Effect.stack (StackEffect.mk 1 [] 0 [] false)]
              (Value.mk 0 [(ValuePart.curStackElem 0, 1)]))]
            (Value.mk 0 [(ValuePart.loopResult 0, 1)]))]
          (Value.mk 0 [(ValuePart.loopResult 0, 1)])
    ∧ compileEffects
        [Effect.loop (Expr.mk
          [Effect.loop (Expr.mk
            [Effect.stack (StackEffect.mk 1 [] 0 [] false)]
            (Value.mk 0 [(ValuePart.curStackElem 0, 1)]))]
          (Value.mk 0 [(ValuePart.loopResult 0, 1)]))]
      = "l r0=0;while(p&&s[p-1])\x7br0+=(0+r0);l r0=0;while(p&&s[p-1])\x7br0+=(0+s[p-1]);p+=-1;\x7d\x7d" := by
  refine ⟨rfl, ?_, ?_⟩
  · simp only [translate, tweGo]
    rfl
  · simp only [compileEffects, compileEffectsGo, batchChunks, csseChunks, compileValue,
      compileValuePart]
    rfl

/-- C1: a counterexample batch for the pre-batch-read claim.  The source
`{}<>(<>{}<>)<>(())` — embedded directly as its instruction tree — yields
a single batch popping the active side twice, pushing `1` onto it, and
pushing the symbolic value `s[p-2]` (the second active element) onto the
inactive side.  The generator materializes the active side's temporaries
and *writes them* before the inactive side's temporaries are even
declared (see the emitted text), so on stack `[5, 7]` the inactive side
receives the freshly written `1` instead of the pre-batch contents `5`
that §4.3 step 3 prescribes (`applyBatchPre`). -/
theorem off_side_temporary_reads_post_write_memory :
    translate [Inst.pop, Inst.toggle, Inst.push [Inst.toggle, Inst.pop, Inst.toggle],
        Inst.toggle, Inst.push [Inst.one]]
      = Expr.mk
          [Effect.stack (StackEffect.mk 2 [Value.mk 1 []] 0
            [Value.mk 0 [(ValuePart.curStackElem 1, 1)]] false)]
          (Value.mk 1 [(ValuePart.curStackElem 0, 1), (ValuePart.curStackElem 1, 1)])
    ∧ compileEffects [Effect.stack (StackEffect.mk 2 [Value.mk 1 []] 0
        [Value.mk 0 [(ValuePart.curStackElem 1, 1)]] false)]
      = "l t0_0=(1);s[p+-2]=t0_0;if(d+1>v)\x7bv*=2;o=realloc(o,v*sizeof(l));\x7dl t0_1=(0+s[p-2]);o[d+0]=t0_1;p+=-1;d+=1;"
    ∧ ((applyBatchCode (fun _ => 0)
        (StackEffect.mk 2 [Value.mk 1 []] 0 [Value.mk 0 [(ValuePart.curStackElem 1, 1)]] false)
        (RState.mk (fun j => if j = 0 then 5 else if j = 1 then 7 else 0) 2 (fun _ => 0) 0)).o 0
        = 1)
    ∧ ((applyBatchPre (fun _ => 0)
        (StackEffect.mk 2 [Value.mk 1 []] 0 [Value.mk 0 [(ValuePart.curStackElem 1, 1)]] false)
        (RState.mk (fun j => if j = 0 then 5 else if j = 1 then 7 else 0) 2 (fun _ => 0) 0)).o 0
        = 5)
    ∧ (1 : Int) ≠ 5 := by
  refine ⟨?_, ?_, rfl, rfl, by decide⟩
  · simp only [translate, tweGo]
    rfl
  · simp only [compileEffects, compileEffectsGo, batchChunks, csseChunks, compileValue,
      compileValuePart, reallocChunk]
    rfl

/-- An emitted loop whose body has no effects never changes the state, so
it never terminates once its guard holds: the guard re-reads the same
live top element every iteration. -/
theorem execLoop_empty_body (res : Value) (st : RState) (hp : st.p ≠ 0)
    (hs : st.s (st.p - 1) ≠ 0) :
    ∀ (fuel : Nat) (env : Nat → Int) (i : Nat) (acc : Int),
      execLoop fuel env i acc (Expr.mk [] res) st = none := by
  intro fuel
  induction fuel with
  | zero => intro env i acc; simp [execLoop]
  | succ n ih =>
    intro env i acc
    simp only [execLoop]
    rw [if_pos ⟨hp, hs⟩]
    simp only [execEffs]
    exact ih _ _ _

/-- C8 (counterexample): the source `{(-1)}` parses as a loop whose body
is the single nilad `One` (`-1` is junk inside a nilad), so the loop body
has *no* stack effects; run against the initial active stack `[3]`, the
emitted loop is still running after 50 iterations — it cannot have
executed exactly 3 times and finished with stack `[0]`. -/
theorem braces_minus_one_loop_does_not_finish :
    parse "\x7b(-1)\x7d" = some [Inst.loop [Inst.one]]
    ∧ translate [Inst.loop [Inst.one]]
        = Expr.mk [Effect.loop (Expr.mk [] (Value.mk 1 []))]
            (Value.mk 0 [(ValuePart.loopResult 0, 1)])
    ∧ execEffs 50 (fun _ => 0) 0 [Effect.loop (Expr.mk [] (Value.mk 1 []))]
        (RState.mk (fun j => if j = 0 then 3 else 0) 1 (fun _ => 0) 0) = none := by
  refine ⟨rfl, by simp only [translate, tweGo]; rfl, ?_⟩
  simp only [execEffs]
  rw [execLoop_empty_body (Value.mk 1 [])
    (RState.mk (fun j => if j = 0 then 3 else 0) 1 (fun _ => 0) 0)
    (by decide) (by decide)]

/-- C8 (amended): compiling `{(-1)}` — whose body is the junk-carrying
nilad `One`, contributing only the constant 1 to the loop's accumulator —
emits a loop with an empty body; run against the initial active stack
`[3]` its guard re-samples the unchanged top element 3 every iteration,
so the program never terminates and prints nothing, for every iteration
bound. -/
theorem braces_minus_one_compiles_to_infinite_loop :
    parse "\x7b(-1)\x7d" = some [Inst.loop [Inst.one]]
    ∧ compileEffects (translate [Inst.loop [Inst.one]]).effects
        = "l r0=0;while(p&&s[p-1])\x7br0+=(1);\x7d"
    ∧ ∀ (fuel : Nat) (env : Nat → Int),
        execEffs fuel env 0 (translate [Inst.loop [Inst.one]]).effects
          (RState.mk (fun j => if j = 0 then 3 else 0) 1 (fun _ => 0) 0) = none := by
  have ht : translate [Inst.loop [Inst.one]]
      = Expr.mk [Effect.loop (Expr.mk [] (Value.mk 1 []))]
          (Value.mk 0 [(ValuePart.loopResult 0, 1)]) := by
    simp only [translate, tweGo]; rfl
  rw [ht]
  refine ⟨rfl, ?_, ?_⟩
  · simp only [Expr.effects, compileEffects, compileEffectsGo, batchChunks, csseChunks,
      compileValue, compileValuePart]
    rfl
  · intro fuel env
    simp only [Expr.effects, execEffs]
    rw [execLoop_empty_body (Value.mk 1 [])
      (RState.mk (fun j => if j = 0 then 3 else 0) 1 (fun _ => 0) 0)
      (by decide) (by decide)]

/-- The decrementing `size_t` print loop, started at `(p-1) mod 2^64`,
emits exactly the first `p` slots in reverse order: `p` wraps to
`2^64 - 1` immediately when the stack is empty, and the index reaches the
sentinel `2^64 - 1` after exactly `p` prints otherwise. -/
theorem printLoopGo_take :
    ∀ (fuel p : Nat) (s : List Int), p ≤ fuel → p < W64 → p ≤ s.length →
      printLoopGo s ((p + (W64 - 1)) % W64) fuel = (s.take p).reverse := by
  have h1 : 1 ≤ W64 := by decide
  intro fuel
  induction fuel with
  | zero =>
    intro p s hf _ _
    have hp : p = 0 := Nat.le_zero.mp hf
    subst hp
    simp [printLoopGo]
  | succ n ih =>
    intro p s hf hW hl
    match p with
    | 0 =>
      have : (0 + (W64 - 1)) % W64 = W64 - 1 := by
        rw [Nat.zero_add, Nat.mod_eq_of_lt (by omega)]
      rw [this]
      simp [printLoopGo]
    | p + 1 =>
      have he : p + 1 + (W64 - 1) = p + W64 := by omega
      rw [he, Nat.add_mod_right, Nat.mod_eq_of_lt (by omega)]
      have hne : p ≠ W64 - 1 := by omega
      have hplt : p < s.length := by omega
      have htake : List.take (p + 1) s = List.take p s ++ [s[p]] := by
        rw [List.take_succ, List.getElem?_eq_getElem hplt]
        rfl
      rw [printLoopGo, if_neg hne, ih p s (by omega) (by omega) (by omega), htake,
        List.reverse_append, List.getD_eq_getElem?_getD, List.getElem?_eq_getElem hplt]
      rfl

/-- C9: for any final active stack `s` (base at index 0) of height `h`
(any `h` a `size_t` can hold that indexes into the stack), the emitted
print loop outputs exactly `h` lines — the slots from the current top
down to the base — and in particular prints zero lines for an empty
stack: the decrementing index wraps to the loop's own `i != -1` sentinel
immediately, so no underflowing read happens. -/
theorem print_loop_prints_exactly_stack (s : List Int) (h : Nat) (hW : h < W64)
    (hl : h ≤ s.length) :
    printLoop s h = (s.take h).reverse
    ∧ (printLoop s h).length = h
    ∧ printLoop s 0 = [] := by
  have hmain := printLoopGo_take h h s (Nat.le_refl h) hW hl
  refine ⟨hmain, ?_, ?_⟩
  · rw [printLoop, hmain, List.length_reverse, List.length_take]
    exact Nat.min_eq_left hl
  · have h0 := printLoopGo_take 0 0 s (Nat.le_refl 0) (by decide) (Nat.zero_le _)
    simpa using h0

/-- C9 (witness): a stack of height 3 prints its three slots top-down;
the hypotheses of `print_loop_prints_exactly_stack` hold at this input. -/
theorem print_loop_prints_exactly_stack_witness :
    3 < W64 ∧ 3 ≤ ([4, 5, 6] : List Int).length ∧ printLoop [4, 5, 6] 3 = [6, 5, 4] := by
  refine ⟨by decide, by decide, ?_⟩
  exact (print_loop_prints_exactly_stack [4, 5, 6] 3 (by decide) (by decide)).1.trans rfl

/-- `noEmptyEffs` distributes over list append. -/
theorem noEmptyEffs_append (a b : List Effect) :
    noEmptyEffs (a ++ b) = (noEmptyEffs a && noEmptyEffs b) := by
  induction a with
  | nil => simp [noEmptyEffs]
  | cons x rest ih =>
    cases x with
    | stack se => simp [noEmptyEffs, ih, Bool.and_assoc]
    | loop e =>
      cases e with
      | mk effs r => simp [noEmptyEffs, ih, Bool.and_assoc]

/-- `push_effect` never appends an empty batch. -/
theorem noEmptyEffs_push_effect (es : List Effect) (ce : StackEffect)
    (h : noEmptyEffs es = true) : noEmptyEffs (push_effect es ce) = true := by
  unfold push_effect
  by_cases hc : ce.is_empty
  · simp [hc, h]
  · simp [hc, noEmptyEffs_append, h, noEmptyEffs]

/-- The translator only ever appends non-empty batches (and loop effects
whose bodies recursively share the property) to the effect log. -/
theorem tweGo_noEmpty (ast : List Inst) (r : Value) (es : List Effect) (ce : StackEffect) :
    noEmptyEffs es = true → noEmptyEffs (tweGo ast r es ce).2.1 = true := by
  induction ast, r, es, ce using tweGo.induct with
  | case1 r es ce => intro h; simpa [tweGo] using h
  | case2 rest r es ce ih => intro h; rw [tweGo]; exact ih h
  | case3 rest r es ce r1 ih => intro h; rw [tweGo]; exact ih h
  | case4 rest r es ce hemp ih => intro h; rw [tweGo, if_pos hemp]; exact ih h
  | case5 rest r es ce hemp ih =>
    intro h
    rw [tweGo, if_neg hemp]
    exact ih h
  | case6 rest r es ce ih => intro h; rw [tweGo]; exact ih h
  | case7 a rest r es ce s es1 ce1 heq iha ihrest =>
    intro h
    rw [tweGo, heq]
    exact ihrest (by simpa [heq] using iha h)
  | case8 a rest r es ce s es1 ce1 heq iha ihrest =>
    intro h
    rw [tweGo, heq]
    exact ihrest (by simpa [heq] using iha h)
  | case9 a rest r es ce es1 br bes bce heq es2 iha ihrest =>
    intro h
    rw [tweGo, heq]
    apply ihrest
    rw [noEmptyEffs_append, Bool.and_eq_true]
    refine ⟨noEmptyEffs_push_effect _ _ h, ?_⟩
    have hb : noEmptyEffs (push_effect bes bce) = true :=
      noEmptyEffs_push_effect _ _ (by simpa [heq] using iha (by simp [noEmptyEffs]))
    simp [noEmptyEffs, hb]
  | case10 a rest r es ce s es1 ce1 heq iha ihrest =>
    intro h
    rw [tweGo, heq]
    exact ihrest (by simpa [heq] using iha h)

/-- C7 (amended): a batch is `is_empty` exactly when both pop counts are
zero, both queues are empty, *and* the toggled flag is clear; no empty
batch is ever appended to any effect log; but a batch whose only change
is a flipped toggled flag is *not* empty and *is* emitted — it alone
realizes the runtime stack swap (source `<>` emits exactly such a
batch). -/
theorem empty_batch_characterization_and_emission :
    (∀ se : StackEffect, se.is_empty = true ↔
      (se.cur_pop = 0 ∧ se.cur_push = [] ∧ se.off_pop = 0 ∧ se.off_push = []
        ∧ se.toggle = false))
    ∧ (∀ ast : List Inst, noEmptyExpr (translate ast) = true)
    ∧ translate [Inst.toggle]
        = Expr.mk [Effect.stack (StackEffect.mk 0 [] 0 [] true)] Value.zero
    ∧ StackEffect.is_empty (StackEffect.mk 0 [] 0 [] true) = false := by
  refine ⟨?_, ?_, ?_, rfl⟩
  · intro se
    simp [StackEffect.is_empty, List.isEmpty_iff, Bool.and_eq_true, beq_iff_eq,
      Bool.not_eq_true', and_assoc]
  · intro ast
    rcases hh : tweGo ast Value.zero [] StackEffect.new with ⟨r, es, ce⟩
    have h1 := tweGo_noEmpty ast Value.zero [] StackEffect.new (by simp [noEmptyEffs])
    rw [hh] at h1
    simp only [translate, hh, noEmptyExpr]
    exact noEmptyEffs_push_effect _ _ h1
  · simp only [translate, tweGo]
    rfl

/-- C7 (counterexample): the batch produced by the single instruction
`ToggleStack` has both pop counts zero and both queues empty, yet
`is_empty` is false for it and the translator emits it — the claimed
"empty iff pop counts zero and queues empty" and "a batch whose only
change is a flipped toggled flag is never emitted" both fail on it. -/
theorem toggle_only_batch_is_emitted :
    StackEffect.is_empty (StackEffect.mk 0 [] 0 [] true) = false
    ∧ (translate [Inst.toggle]).effects = [Effect.stack (StackEffect.mk 0 [] 0 [] true)] := by
  refine ⟨rfl, ?_⟩
  simp only [translate, tweGo]
  rfl


/-- Parity of a sum of counts, in the `Bool` form the toggle flag uses. -/
theorem parity_add (a b : Nat) :
    ((a + b) % 2 == 1) = (Bool.xor (a % 2 == 1) (b % 2 == 1)) := by
  rcases Nat.mod_two_eq_zero_or_one a with h | h <;>
    rcases Nat.mod_two_eq_zero_or_one b with h2 | h2 <;>
      simp [Nat.add_mod, h, h2]

/-- The open batch's toggle flag after a loop-free sequence is the
starting flag xor the parity of the `ToggleStack` instructions
processed. -/
theorem tweGo_toggle_parity (ast : List Inst) (r : Value) (es : List Effect)
    (ce : StackEffect) :
    noLoop ast = true →
      (tweGo ast r es ce).2.2.toggle = (Bool.xor ce.toggle (countToggles ast % 2 == 1)) := by
  induction ast, r, es, ce using tweGo.induct with
  | case1 r es ce => intro h; simp [tweGo, countToggles]
  | case2 rest r es ce ih =>
    intro h
    rw [tweGo, countToggles]
    exact ih (by rwa [noLoop] at h)
  | case3 rest r es ce r1 ih =>
    intro h
    rw [tweGo, countToggles]
    exact ih (by rwa [noLoop] at h)
  | case4 rest r es ce hemp ih =>
    intro h
    rw [tweGo, if_pos hemp, countToggles]
    rw [ih (by rwa [noLoop] at h)]
    simp
  | case5 rest r es ce hemp ih =>
    intro h
    rw [tweGo, if_neg hemp, countToggles]
    rw [ih (by rwa [noLoop] at h)]
    simp
  | case6 rest r es ce ih =>
    intro h
    rw [tweGo]
    rw [ih (by rwa [noLoop] at h)]
    show Bool.xor (!ce.toggle) (countToggles rest % 2 == 1)
      = Bool.xor ce.toggle (countToggles (Inst.toggle :: rest) % 2 == 1)
    rw [countToggles, parity_add]
    cases ce.toggle <;> cases h1 : (countToggles rest % 2 == 1) <;> simp [h1]
  | case7 a rest r es ce s es1 ce1 heq iha ihrest =>
    intro h
    rw [noLoop, Bool.and_eq_true] at h
    have hsplit := h
    rw [tweGo, heq, countToggles]
    rw [ihrest hsplit.2]
    have h1 : ce1.toggle = (Bool.xor ce.toggle (countToggles a % 2 == 1)) := by
      have := iha hsplit.1
      rw [heq] at this
      exact this
    rw [toggle_set_pp, h1, parity_add, Bool.xor_assoc]
  | case8 a rest r es ce s es1 ce1 heq iha ihrest =>
    intro h
    rw [noLoop, Bool.and_eq_true] at h
    have hsplit := h
    rw [tweGo, heq, countToggles]
    rw [ihrest hsplit.2]
    have h1 : ce1.toggle = (Bool.xor ce.toggle (countToggles a % 2 == 1)) := by
      have := iha hsplit.1
      rw [heq] at this
      exact this
    rw [h1, parity_add, Bool.xor_assoc]
  | case9 a rest r es ce es1 br bes bce heq es2 iha ihrest =>
    intro h
    rw [noLoop] at h
    exact absurd h (by simp)
  | case10 a rest r es ce s es1 ce1 heq iha ihrest =>
    intro h
    rw [noLoop, Bool.and_eq_true] at h
    have hsplit := h
    rw [tweGo, heq, countToggles]
    rw [ihrest hsplit.2]
    have h1 : ce1.toggle = (Bool.xor ce.toggle (countToggles a % 2 == 1)) := by
      have := iha hsplit.1
      rw [heq] at this
      exact this
    rw [h1, parity_add, Bool.xor_assoc]

/-- Heads of appended strings. -/
theorem head_append_str (x y : String) (c : Char) (h : x.data.head? = some c) :
    (x ++ y).data.head? = some c := by
  rw [String.data_append]
  cases hx : x.data with
  | nil => rw [hx] at h; cases h
  | cons a as =>
    rw [hx] at h
    simp only [List.head?] at h
    simp [List.cons_append, List.head?, h]

/-- A string whose first character differs from the swap text's opening
brace is not the swap text. -/
theorem ne_swapStr (s : String) (c : Char) (hc : s.data.head? = some c)
    (hne : c ≠ '\x7b') : s ≠ swapStr := by
  intro he
  rw [he] at hc
  have h0 : swapStr.data.head? = some '\x7b' := rfl
  rw [h0] at hc
  exact hne (Option.some.inj hc.symm)

/-- No chunk of one side's lowering is the stack-pair swap. -/
theorem count_swap_csse (pop : Nat) (push : List Value) (off : Bool) (idx : Nat) :
    ((csseChunks pop push off idx).1).count swapStr = 0 := by
  rw [List.count_eq_zero]
  intro hmem
  simp only [csseChunks] at hmem
  rcases List.mem_append.mp hmem with h | h
  · rcases List.mem_append.mp h with h2 | h2
    · by_cases hoff : ((push.length : Int) - (pop : Int)) > 0
      · rw [if_pos hoff] at h2
        simp only [List.mem_singleton] at h2
        revert h2
        apply Ne.symm
        apply ne_swapStr _ 'i'
        · unfold reallocChunk
          repeat apply head_append_str
          rfl
        · decide
      · rw [if_neg hoff] at h2
        simp at h2
    · rcases List.mem_map.mp h2 with ⟨ie, _, heq⟩
      revert heq
      apply ne_swapStr _ 'l'
      · repeat apply head_append_str
        rfl
      · decide
  · rcases List.mem_map.mp h with ⟨i, _, heq⟩
    revert heq
    cases off
    · apply ne_swapStr _ 's'
      · repeat apply head_append_str
        rfl
      · decide
    · apply ne_swapStr _ 'o'
      · repeat apply head_append_str
        rfl
      · decide

/-- The chunks emitted for one batch contain the stack-pair swap exactly
once when `toggle` is set and not at all otherwise. -/
theorem count_swap_batch (i : Nat) (se : StackEffect) :
    (batchChunks i se).count swapStr = if se.toggle then 1 else 0 := by
  unfold batchChunks
  simp only [List.count_append, count_swap_csse]
  have hcp : List.count swapStr
      (if (csseChunks se.cur_pop se.cur_push false (i * 2)).2 ≠ 0 then
        ["p+=" ++ toString (csseChunks se.cur_pop se.cur_push false (i * 2)).2 ++ ";"]
      else []) = 0 := by
    split
    · rw [List.count_eq_zero]
      intro hm
      simp only [List.mem_singleton] at hm
      revert hm
      apply Ne.symm
      apply ne_swapStr _ 'p'
      · repeat apply head_append_str
        rfl
      · decide
    · rfl
  have hcd : List.count swapStr
      (if (csseChunks se.off_pop se.off_push true (i * 2 + 1)).2 ≠ 0 then
        ["d+=" ++ toString (csseChunks se.off_pop se.off_push true (i * 2 + 1)).2 ++ ";"]
      else []) = 0 := by
    split
    · rw [List.count_eq_zero]
      intro hm
      simp only [List.mem_singleton] at hm
      revert hm
      apply Ne.symm
      apply ne_swapStr _ 'd'
      · repeat apply head_append_str
        rfl
      · decide
    · rfl
  rw [hcp, hcd]
  cases htog : se.toggle
  · simp
  · simp [List.count_cons]

/-- C5: the toggled flag of a batch is set iff the number of
`ToggleStack` instructions processed within the batch (from its creation,
through nested `Push`/`Negate`/`Discard` groups) is odd; the generator
emits the stack-pair swap exactly once for a toggled batch and never
otherwise; and two consecutive toggles cancel: `<><>{}` pops the
original (cur) side, its batch has `toggle = false`, and its lowering
contains no swap. -/
theorem toggle_parity_and_single_swap :
    (∀ (ast : List Inst) (r : Value) (es : List Effect), noLoop ast = true →
      (tweGo ast r es StackEffect.new).2.2.toggle = (countToggles ast % 2 == 1))
    ∧ (∀ (i : Nat) (se : StackEffect),
        (batchChunks i se).count swapStr = if se.toggle then 1 else 0)
    ∧ tweGo [Inst.toggle, Inst.toggle, Inst.pop] Value.zero [] StackEffect.new
        = (Value.mk 0 [(ValuePart.curStackElem 0, 1)], [],
            StackEffect.mk 1 [] 0 [] false)
    ∧ batchChunks 0 (StackEffect.mk 1 [] 0 [] false) = ["p+=-1;"] := by
  refine ⟨?_, count_swap_batch, ?_, rfl⟩
  · intro ast r es h
    have hx := tweGo_toggle_parity ast r es StackEffect.new h
    rw [hx]
    simp [StackEffect.new]
  · simp only [tweGo]
    rfl

/-- C5 (witness): the parity conjunct instantiated at the loop-free
sequence `<>(<>){}` (two toggles, one in a nested push group): the flag
ends false. -/
theorem toggle_parity_and_single_swap_witness :
    noLoop [Inst.toggle, Inst.push [Inst.toggle], Inst.pop] = true
    ∧ (tweGo [Inst.toggle, Inst.push [Inst.toggle], Inst.pop] Value.zero []
        StackEffect.new).2.2.toggle
      = (countToggles [Inst.toggle, Inst.push [Inst.toggle], Inst.pop] % 2 == 1) := by
  refine ⟨by simp [noLoop], ?_⟩
  exact toggle_parity_and_single_swap.1 [Inst.toggle, Inst.push [Inst.toggle], Inst.pop]
    Value.zero [] (by simp [noLoop])


theorem set_getElem_self_t {α : Type} : ∀ (l : List α) (i : Nat) (h : i < l.length),
    l.set i l[i] = l := by
  intro l
  induction l with
  | nil => intro i h; cases h
  | cons x xs ih =>
    intro i h
    cases i with
    | zero => rfl
    | succ n =>
      simp only [List.set_cons_succ, List.getElem_cons_succ]
      rw [ih n (by simpa using h)]

theorem findIdx?_some_spec_t {α : Type} (p : α → Bool) :
    ∀ (l : List α) (k i : Nat), List.findIdx? p l k = some i →
      k ≤ i ∧ ∃ h : i - k < l.length, p (l[i - k]) = true := by
  intro l
  induction l with
  | nil => intro k i h; rw [List.findIdx?_nil] at h; cases h
  | cons x xs ih =>
    intro k i h
    rw [List.findIdx?_cons] at h
    by_cases hx : p x
    · rw [if_pos hx] at h
      have : k = i := Option.some.inj h
      subst this
      exact ⟨Nat.le_refl _, by simpa using hx⟩
    · rw [if_neg hx] at h
      obtain ⟨hk, hlt, hp⟩ := ih (k + 1) i h
      have hki : k + 1 ≤ i := hk
      refine ⟨by omega, ?_⟩
      have hs : i - k = (i - (k + 1)) + 1 := by omega
      rw [hs]
      refine ⟨by simpa using Nat.succ_lt_succ hlt, ?_⟩
      simpa using hp

theorem swapRemove_perm_t {α : Type} [Inhabited α] (l : List α) (i : Nat)
    (h : i < l.length) : (swapRemove l i).Perm (l.eraseIdx i) := by
  have hne : l ≠ [] := by
    intro he
    rw [he] at h
    cases h
  obtain ⟨m, x, hmx⟩ : ∃ m x, l = m ++ [x] :=
    ⟨l.dropLast, l.getLast hne, (List.dropLast_append_getLast hne).symm⟩
  subst hmx
  have hlast : (m ++ [x]).getLast? = some x := List.getLast?_concat m
  unfold swapRemove
  rw [hlast]
  simp only [Option.getD_some]
  rw [List.set_append]
  by_cases hi : i < m.length
  · rw [if_pos hi]
    rw [List.dropLast_concat]
    rw [List.eraseIdx_append_of_lt_length hi]
    rw [List.set_eq_take_append_cons_drop, if_pos hi, List.eraseIdx_eq_take_drop_succ]
    refine List.Perm.trans List.perm_middle ?_
    exact (List.perm_append_singleton _ _).symm
  · rw [if_neg hi]
    have hi2 : i = m.length := by
      have hlen : (m ++ [x]).length = m.length + 1 := by simp
      omega
    have hz : i - m.length = 0 := by omega
    rw [hz]
    simp only [List.set_cons_zero]
    rw [List.dropLast_concat]
    have : (m ++ [x]).eraseIdx i = m := by
      subst hi2
      have := List.eraseIdx_append_of_lt_length (l := m ++ [x]) (k := m.length)
      rw [List.eraseIdx_eq_take_drop_succ]
      simp
    rw [this]

theorem mem_swapRemove_t {α : Type} [Inhabited α] {x : α} {l : List α} {i : Nat}
    (h : x ∈ swapRemove l i) : x ∈ l := by
  unfold swapRemove at h
  have h1 := List.Sublist.mem h (List.dropLast_sublist _)
  rcases List.mem_or_eq_of_mem_set h1 with h2 | h2
  · exact h2
  · cases hl : l with
    | nil =>
      subst hl
      rw [List.set_nil] at h1
      exact absurd h1 (List.not_mem_nil x)
    | cons a as =>
      rw [hl] at h2
      rw [List.getLast?_eq_getLast (a :: as) (by simp), Option.getD_some] at h2
      rw [h2]
      exact List.getLast_mem _

theorem canonical_add_part_n_t (v : Value) (p : ValuePart) (n : Int) (hn : n ≠ 0)
    (hc : Canonical v) : Canonical (v.add_part_n p n) := by
  unfold Value.add_part_n
  cases hf : v.parts.findIdx? (fun pc => pc.1 = p) with
  | none =>
    constructor
    · simp only [List.map_append, List.map_cons, List.map_nil]
      rw [List.nodup_append]
      refine ⟨hc.1, List.nodup_singleton _, ?_⟩
      intro a ha hb
      simp only [List.mem_singleton] at hb
      subst hb
      rcases List.mem_map.mp ha with ⟨pc, hpc, hfst⟩
      have hno := List.findIdx?_eq_none_iff.mp hf pc hpc
      simp only [decide_eq_false_iff_not] at hno
      exact hno hfst
    · intro pc hpc
      rcases List.mem_append.mp hpc with h | h
      · exact hc.2 pc h
      · simp only [List.mem_singleton] at h
        subst h
        exact hn
  | some i =>
    obtain ⟨-, hex⟩ := findIdx?_some_spec_t _ v.parts 0 i hf
    rw [Nat.sub_zero] at hex
    obtain ⟨hlt, hp⟩ := hex
    have hkey : (v.parts[i]).1 = p := by simpa using hp
    have hgetD : v.parts.getD i (p, 0) = v.parts[i] := by
      rw [List.getD_eq_getElem?_getD, List.getElem?_eq_getElem hlt]
      rfl
    show Canonical (if (v.parts.getD i (p, 0)).2 + n = 0 then
        { const_val := v.const_val, parts := swapRemove v.parts i }
      else { const_val := v.const_val,
             parts := v.parts.set i (p, (v.parts.getD i (p, 0)).2 + n) })
    by_cases hz : (v.parts.getD i (p, 0)).2 + n = 0
    · rw [if_pos hz]
      constructor
      · have hperm := (swapRemove_perm_t v.parts i hlt).map Prod.fst
        apply hperm.symm.nodup
        apply List.Sublist.nodup (List.Sublist.map _ (List.eraseIdx_sublist _ _)) hc.1
      · intro pc hpc
        exact hc.2 pc (mem_swapRemove_t hpc)
    · rw [if_neg hz]
      constructor
      · simp only [List.map_set]
        have hlm : i < (v.parts.map Prod.fst).length := by simpa using hlt
        have hset := set_getElem_self_t (v.parts.map Prod.fst) i hlm
        have hkm : (v.parts.map Prod.fst)[i] = p := by
          rw [List.getElem_map]
          exact hkey
        rw [hkm] at hset
        rw [hset]
        exact hc.1
      · intro pc hpc
        rcases List.mem_or_eq_of_mem_set hpc with h | h
        · exact hc.2 pc h
        · subst h
          exact hz

theorem canonical_negate_t (v : Value) (hc : Canonical v) : Canonical v.negate := by
  constructor
  · have : v.negate.parts.map Prod.fst = v.parts.map Prod.fst := by
      unfold Value.negate
      rw [List.map_map]
      rfl
    rw [this]
    exact hc.1
  · intro pc hpc
    rcases List.mem_map.mp hpc with ⟨qc, hqc, hf⟩
    subst hf
    have h2 := hc.2 qc hqc
    show qc.2 * -1 ≠ 0
    intro hcontra
    rcases mul_eq_zero.mp hcontra with h3 | h3
    · exact h2 h3
    · norm_num at h3

theorem canonical_add_t (v w : Value) (hv : Canonical v) (hw : Canonical w) :
    Canonical (v.add w) := by
  unfold Value.add
  have hstart : Canonical { v with const_val := v.const_val + w.const_val } := hv
  revert hstart
  have hco : ∀ pc ∈ w.parts, pc.2 ≠ 0 := hw.2
  revert hco
  generalize { const_val := v.const_val + w.const_val, parts := v.parts : Value } = acc
  induction w.parts generalizing acc with
  | nil => intro _ h; exact h
  | cons pc rest ih =>
    intro hco h
    rw [List.foldl_cons]
    exact ih _ (fun qc hqc => hco qc (List.mem_cons_of_mem _ hqc))
      (canonical_add_part_n_t _ _ _ (hco pc (List.mem_cons_self _ _)) h)

/-- C6 (counterexample): the single mutator call `addTerm(CurStackSize, 0)`
on the zero value inserts a term with coefficient zero (the atom is
absent, so `add_part_n` pushes `(atom, n)` without checking `n`),
breaking canonical form. -/
theorem addTerm_zero_coefficient_not_canonical :
    ([Mut.addTerm ValuePart.curStackSize 0].foldl applyMut Value.zero).parts
      = [(ValuePart.curStackSize, 0)]
    ∧ ¬ Canonical ([Mut.addTerm ValuePart.curStackSize 0].foldl applyMut Value.zero) := by
  exact ⟨rfl, by decide⟩

/-- C6 (amended): every value produced from zero by a sequence of the
mutators `negate`, `addConstant`, `addTerm` and `merge` is canonical —
no atom twice, no zero coefficient — provided each `addTerm` carries a
nonzero coefficient (as every call site in the translator does) and each
`merge` argument is canonical. -/
theorem mutator_sequences_preserve_canonical_form (ms : List Mut)
    (h : ∀ m ∈ ms, MutOK m) : Canonical (ms.foldl applyMut Value.zero) := by
  have hz : Canonical Value.zero := by decide
  suffices H : ∀ (l : List Mut) (v : Value), Canonical v → (∀ m ∈ l, MutOK m) →
      Canonical (l.foldl applyMut v) from H ms Value.zero hz h
  intro l
  induction l with
  | nil => intro v hv _; exact hv
  | cons m rest ih =>
    intro v hv hok
    rw [List.foldl_cons]
    apply ih
    · cases m with
      | neg => exact canonical_negate_t _ hv
      | addConst n => exact hv
      | addTerm p n =>
        exact canonical_add_part_n_t _ _ _ (hok _ (List.mem_cons_self _ _)) hv
      | merge w => exact canonical_add_t _ _ hv (hok _ (List.mem_cons_self _ _))
    · exact fun m2 hm2 => hok m2 (List.mem_cons_of_mem _ hm2)

/-- C6 (witness): a concrete valid mutator sequence — nonzero `addTerm`,
`negate`, `addConstant`, `merge` of a canonical value — ends canonical. -/
theorem mutator_sequences_preserve_canonical_form_witness :
    (∀ m ∈ [Mut.addTerm ValuePart.curStackSize 2, Mut.neg, Mut.addConst 5,
        Mut.merge (Value.mk 3 [(ValuePart.curStackSize, 1)])], MutOK m)
    ∧ Canonical ([Mut.addTerm ValuePart.curStackSize 2, Mut.neg, Mut.addConst 5,
        Mut.merge (Value.mk 3 [(ValuePart.curStackSize, 1)])].foldl applyMut Value.zero) := by
  refine ⟨by decide, mutator_sequences_preserve_canonical_form _ (by decide)⟩


theorem isLoopAt_lt (es : List Effect) (i : Nat) (h : isLoopAt es i = true) :
    i < es.length := by
  unfold isLoopAt at h
  cases hg : es[i]? with
  | none => rw [hg] at h; cases h
  | some e =>
    have := List.getElem?_eq_some_iff.mp hg
    exact this.1

theorem isLoopAt_append (es t : List Effect) (i : Nat) (h : isLoopAt es i = true) :
    isLoopAt (es ++ t) i = true := by
  have hlt := isLoopAt_lt es i h
  unfold isLoopAt at h ⊢
  rw [List.getElem?_append_left hlt]
  exact h

theorem atomOK_mono (b b2 : Nat) (es t : List Effect) (p : ValuePart) (hb : b ≤ b2)
    (h : atomOK b es p = true) : atomOK b2 (es ++ t) p = true := by
  cases p with
  | loopResult i =>
    unfold atomOK at h ⊢
    rw [Bool.and_eq_true] at h
    rw [Bool.and_eq_true]
    refine ⟨by simp at h ⊢; omega, isLoopAt_append _ _ _ h.2⟩
  | curStackElem n => rfl
  | offStackElem n => rfl
  | curStackSize => rfl
  | offStackSize => rfl

theorem vOK_mono (b b2 : Nat) (es t : List Effect) (v : Value) (hb : b ≤ b2)
    (h : vOK b es v = true) : vOK b2 (es ++ t) v = true := by
  unfold vOK at h ⊢
  rw [List.all_eq_true] at h ⊢
  exact fun pc hpc => atomOK_mono b b2 es t pc.1 hb (h pc hpc)

theorem vOK_zero (b : Nat) (es : List Effect) : vOK b es Value.zero = true := rfl

theorem vOK_add_const (b : Nat) (es : List Effect) (v : Value) (n : Int) :
    vOK b es (v.add_const n) = vOK b es v := rfl

theorem mem_add_part_n {pc : ValuePart × Int} (v : Value) (p : ValuePart) (n : Int)
    (h : pc ∈ (v.add_part_n p n).parts) : pc ∈ v.parts ∨ pc.1 = p := by
  unfold Value.add_part_n at h
  cases hf : v.parts.findIdx? (fun qc => qc.1 = p) with
  | none =>
    rw [hf] at h
    simp only at h
    rcases List.mem_append.mp h with h2 | h2
    · exact Or.inl h2
    · simp only [List.mem_singleton] at h2
      subst h2
      exact Or.inr rfl
  | some i =>
    rw [hf] at h
    simp only at h
    by_cases hz : (v.parts.getD i (p, 0)).2 + n = 0
    · rw [if_pos hz] at h
      exact Or.inl (mem_swapRemove_t h)
    · rw [if_neg hz] at h
      rcases List.mem_or_eq_of_mem_set h with h2 | h2
      · exact Or.inl h2
      · subst h2
        exact Or.inr rfl

theorem vOK_add_part_n (b : Nat) (es : List Effect) (v : Value) (p : ValuePart) (n : Int)
    (hv : vOK b es v = true) (hp : atomOK b es p = true) :
    vOK b es (v.add_part_n p n) = true := by
  unfold vOK at hv ⊢
  rw [List.all_eq_true] at hv ⊢
  intro pc hpc
  rcases mem_add_part_n v p n hpc with h | h
  · exact hv pc h
  · rw [h]
    exact hp

theorem vOK_add (b : Nat) (es : List Effect) (v w : Value)
    (hv : vOK b es v = true) (hw : vOK b es w = true) : vOK b es (v.add w) = true := by
  unfold Value.add
  have hw2 : ∀ pc ∈ w.parts, atomOK b es pc.1 = true := by
    unfold vOK at hw
    rw [List.all_eq_true] at hw
    exact hw
  clear hw
  have hstart : vOK b es { v with const_val := v.const_val + w.const_val } = true := hv
  revert hstart hw2
  generalize { const_val := v.const_val + w.const_val, parts := v.parts : Value } = acc
  induction w.parts generalizing acc with
  | nil => intro _ h; exact h
  | cons pc rest ih =>
    intro hmem hacc
    rw [List.foldl_cons]
    exact ih _ (fun qc hqc => hmem qc (List.mem_cons_of_mem _ hqc))
      (vOK_add_part_n _ _ _ _ _ hacc (hmem pc (List.mem_cons_self _ _)))

theorem vOK_negate (b : Nat) (es : List Effect) (v : Value)
    (hv : vOK b es v = true) : vOK b es v.negate = true := by
  unfold vOK at hv ⊢
  rw [List.all_eq_true] at hv ⊢
  intro pc hpc
  unfold Value.negate at hpc
  simp only at hpc
  rcases List.mem_map.mp hpc with ⟨qc, hqc, hf⟩
  subst hf
  exact hv qc hqc

theorem all_vOK_mono (b b2 : Nat) (es t : List Effect) (L : List Value) (hb : b ≤ b2)
    (h : L.all (vOK b es) = true) : L.all (vOK b2 (es ++ t)) = true := by
  rw [List.all_eq_true] at h ⊢
  exact fun v hv => vOK_mono b b2 es t v hb (h v hv)

theorem wfEffs_mono_full (es t : List Effect) : ∀ (j : Nat) (l : List Effect),
    wfEffs es j l = true → wfEffs (es ++ t) j l = true := by
  intro j l
  induction l generalizing j with
  | nil => intro h; exact h
  | cons x rest ih =>
    cases x with
    | stack se =>
      intro h
      rw [wfEffs] at h ⊢
      rw [Bool.and_eq_true, Bool.and_eq_true] at h
      rw [Bool.and_eq_true, Bool.and_eq_true]
      exact ⟨⟨all_vOK_mono j j es t _ (Nat.le_refl j) h.1.1,
        all_vOK_mono j j es t _ (Nat.le_refl j) h.1.2⟩, ih (j + 1) h.2⟩
    | loop ex =>
      intro h
      rw [wfEffs] at h ⊢
      rw [Bool.and_eq_true] at h
      rw [Bool.and_eq_true]
      exact ⟨h.1, ih (j + 1) h.2⟩

theorem wfEffs_append (full : List Effect) : ∀ (j : Nat) (a b : List Effect),
    wfEffs full j (a ++ b) = (wfEffs full j a && wfEffs full (j + a.length) b) := by
  intro j a
  induction a generalizing j with
  | nil => intro b; simp [wfEffs]
  | cons x rest ih =>
    intro b
    cases x with
    | stack se =>
      rw [List.cons_append, wfEffs, wfEffs, ih (j + 1) b]
      simp [Bool.and_assoc, Nat.add_assoc, Nat.add_comm 1 rest.length]
    | loop ex =>
      rw [List.cons_append, wfEffs, wfEffs, ih (j + 1) b]
      simp [Bool.and_assoc, Nat.add_assoc, Nat.add_comm 1 rest.length]

theorem logOK_append_stack (es : List Effect) (se : StackEffect)
    (hlog : wfEffs es 0 es = true)
    (hse : se.cur_push.all (vOK es.length es) = true)
    (hse2 : se.off_push.all (vOK es.length es) = true) :
    wfEffs (es ++ [Effect.stack se]) 0 (es ++ [Effect.stack se]) = true := by
  rw [wfEffs_append, Bool.and_eq_true]
  refine ⟨wfEffs_mono_full es _ 0 es hlog, ?_⟩
  rw [Nat.zero_add, wfEffs, wfEffs]
  rw [Bool.and_eq_true, Bool.and_eq_true]
  exact ⟨⟨all_vOK_mono es.length es.length es _ _ (Nat.le_refl _) hse,
    all_vOK_mono es.length es.length es _ _ (Nat.le_refl _) hse2⟩, rfl⟩

theorem logOK_append_loop (es : List Effect) (ex : Expr)
    (hlog : wfEffs es 0 es = true) (hex : wfExpr ex = true) :
    wfEffs (es ++ [Effect.loop ex]) 0 (es ++ [Effect.loop ex]) = true := by
  rw [wfEffs_append, Bool.and_eq_true]
  refine ⟨wfEffs_mono_full es _ 0 es hlog, ?_⟩
  rw [Nat.zero_add, wfEffs, wfEffs]
  rw [Bool.and_eq_true]
  exact ⟨hex, rfl⟩

theorem ceOK_new (es : List Effect) : ceOK es StackEffect.new = true := rfl

theorem ceOK_mono (es t : List Effect) (ce : StackEffect) (h : ceOK es ce = true) :
    ceOK (es ++ t) ce = true := by
  unfold ceOK at h ⊢
  rw [Bool.and_eq_true] at h
  rw [Bool.and_eq_true]
  have hlen : es.length ≤ (es ++ t).length := by simp
  exact ⟨all_vOK_mono es.length _ es t _ hlen h.1, all_vOK_mono es.length _ es t _ hlen h.2⟩

theorem ceOK_toggle (es : List Effect) (ce : StackEffect) (b : Bool)
    (h : ceOK es ce = true) : ceOK es { ce with toggle := b } = true := h

theorem ceOK_pp_push_all (es : List Effect) (ce : StackEffect) (h : ceOK es ce = true) :
    ce.pp_push.all (vOK es.length es) = true := by
  unfold ceOK at h
  rw [Bool.and_eq_true] at h
  unfold StackEffect.pp_push
  cases ht : ce.toggle
  · simpa using h.1
  · simpa using h.2

theorem ceOK_set_pp (es : List Effect) (ce : StackEffect) (q : Nat) (L : List Value)
    (h : ceOK es ce = true) (hL : L.all (vOK es.length es) = true) :
    ceOK es (ce.set_pp q L) = true := by
  unfold ceOK at h ⊢
  rw [Bool.and_eq_true] at h
  obtain ⟨h1, h2⟩ := h
  rw [List.all_eq_true] at h1 h2 hL
  unfold StackEffect.set_pp
  cases ht : ce.toggle
  · simp [List.all_eq_true]
    exact ⟨hL, h2⟩
  · simp [List.all_eq_true]
    exact ⟨h1, hL⟩

theorem all_dropLast {α : Type} (L : List α) (p : α → Bool) (h : L.all p = true) :
    L.dropLast.all p = true := by
  rw [List.all_eq_true] at h ⊢
  exact fun x hx => h x (List.Sublist.mem hx (List.dropLast_sublist L))

theorem getLast_vOK (b : Nat) (es : List Effect) (L : List Value)
    (hne : L.isEmpty = false) (h : L.all (vOK b es) = true) :
    vOK b es (L.getLast?.getD Value.zero) = true := by
  cases L with
  | nil => cases hne
  | cons x xs =>
    rw [List.getLast?_eq_getLast (x :: xs) (by simp), Option.getD_some]
    rw [List.all_eq_true] at h
    exact h _ (List.getLast_mem _)

theorem atomOK_stack_elem (b : Nat) (es : List Effect) (ce : StackEffect) (t : Nat) :
    atomOK b es (ce.stack_elem t) = true := by
  unfold StackEffect.stack_elem
  cases ht : ce.toggle <;> rfl

theorem atomOK_stack_size (b : Nat) (es : List Effect) (ce : StackEffect) :
    atomOK b es ce.stack_size = true := by
  unfold StackEffect.stack_size
  cases ht : ce.toggle <;> rfl

theorem logOK_push_effect (es : List Effect) (ce : StackEffect)
    (hlog : wfEffs es 0 es = true) (hce : ceOK es ce = true) :
    wfEffs (push_effect es ce) 0 (push_effect es ce) = true
    ∧ ∃ t, push_effect es ce = es ++ t := by
  have hce2 := hce
  unfold ceOK at hce2
  rw [Bool.and_eq_true] at hce2
  unfold push_effect
  cases hc : ce.is_empty
  · simp only [hc, Bool.not_false, if_true]
    exact ⟨logOK_append_stack es ce hlog hce2.1 hce2.2, [Effect.stack ce], rfl⟩
  · simp only [hc, Bool.not_true, Bool.false_eq_true, if_false]
    exact ⟨hlog, [], by simp⟩

theorem wfExpr_flush (es : List Effect) (ce : StackEffect) (r : Value)
    (hlog : wfEffs es 0 es = true) (hce : ceOK es ce = true)
    (hr : vOK es.length es r = true) :
    wfExpr (Expr.mk (push_effect es ce) r) = true := by
  obtain ⟨hw, t, ht⟩ := logOK_push_effect es ce hlog hce
  rw [wfExpr, Bool.and_eq_true]
  refine ⟨hw, ?_⟩
  rw [ht]
  exact vOK_mono es.length (es ++ t).length es t r (by simp) hr

theorem isLoopAt_concat_loop (L : List Effect) (ex : Expr) :
    isLoopAt (L ++ [Effect.loop ex]) L.length = true := by
  unfold isLoopAt
  rw [List.getElem?_concat_length]

theorem tweGo_wf (ast : List Inst) (r : Value) (es : List Effect) (ce : StackEffect) :
    wfEffs es 0 es = true → ceOK es ce = true → vOK es.length es r = true →
      (∃ t, (tweGo ast r es ce).2.1 = es ++ t)
      ∧ wfEffs (tweGo ast r es ce).2.1 0 (tweGo ast r es ce).2.1 = true
      ∧ ceOK (tweGo ast r es ce).2.1 (tweGo ast r es ce).2.2 = true
      ∧ vOK (tweGo ast r es ce).2.1.length (tweGo ast r es ce).2.1
          (tweGo ast r es ce).1 = true := by
  induction ast, r, es, ce using tweGo.induct with
  | case1 r es ce =>
    intro h1 h2 h3
    rw [tweGo]
    exact ⟨⟨[], by simp⟩, h1, h2, h3⟩
  | case2 rest r es ce ih =>
    intro h1 h2 h3
    rw [tweGo]
    exact ih h1 h2 (by rwa [vOK_add_const])
  | case3 rest r es ce r1 ih =>
    intro h1 h2 h3
    rw [tweGo]
    refine ih h1 h2 ?_
    show vOK es.length es r1 = true
    rw [vOK_add_const]
    exact vOK_add_part_n _ _ _ _ _ h3 (atomOK_stack_size _ _ _)
  | case4 rest r es ce hemp ih =>
    intro h1 h2 h3
    rw [tweGo, if_pos hemp]
    refine ih h1 ?_ ?_
    · exact ceOK_set_pp _ _ _ _ h2 (ceOK_pp_push_all _ _ h2)
    · exact vOK_add_part_n _ _ _ _ _ h3 (atomOK_stack_elem _ _ _ _)
  | case5 rest r es ce hemp ih =>
    intro h1 h2 h3
    rw [tweGo, if_neg hemp]
    refine ih h1 ?_ ?_
    · exact ceOK_set_pp _ _ _ _ h2 (all_dropLast _ _ (ceOK_pp_push_all _ _ h2))
    · refine vOK_add _ _ _ _ h3 ?_
      refine getLast_vOK _ _ _ ?_ (ceOK_pp_push_all _ _ h2)
      rw [Bool.not_eq_true] at hemp
      exact hemp
  | case6 rest r es ce ih =>
    intro h1 h2 h3
    rw [tweGo]
    exact ih h1 (ceOK_toggle _ _ _ h2) h3
  | case7 a rest r es ce s es1 ce1 heq iha ihrest =>
    intro h1 h2 h3
    rw [tweGo, heq]
    have iha2 := iha h1 h2 (vOK_zero _ _)
    rw [heq] at iha2
    obtain ⟨⟨t, ht⟩, hw1, hce1, hs⟩ := iha2
    have ht2 : es1 = es ++ t := ht
    have hw1b : wfEffs es1 0 es1 = true := hw1
    have hce1b : ceOK es1 ce1 = true := hce1
    have hsb : vOK es1.length es1 s = true := hs
    have hlen : es.length ≤ es1.length := by rw [ht2]; simp
    have hr1 : vOK es1.length es1 (r.add s) = true := by
      refine vOK_add _ _ _ _ ?_ hsb
      rw [ht2]
      exact vOK_mono es.length _ es t r (by simp) h3
    have hq : (ce1.pp_push ++ [s]).all (vOK es1.length es1) = true := by
      rw [List.all_append, Bool.and_eq_true]
      refine ⟨ceOK_pp_push_all _ _ hce1b, ?_⟩
      simp [List.all_eq_true, hsb]
    have hce2 : ceOK es1 (ce1.set_pp ce1.pp_pop (ce1.pp_push ++ [s])) = true :=
      ceOK_set_pp _ _ _ _ hce1b hq
    obtain ⟨⟨t2, ht3⟩, hw2, hce3, hr2⟩ := ihrest hw1b hce2 hr1
    refine ⟨⟨t ++ t2, ?_⟩, hw2, hce3, hr2⟩
    rw [ht3, ht2, List.append_assoc]
  | case8 a rest r es ce s es1 ce1 heq iha ihrest =>
    intro h1 h2 h3
    rw [tweGo, heq]
    have iha2 := iha h1 h2 (vOK_zero _ _)
    rw [heq] at iha2
    obtain ⟨⟨t, ht⟩, hw1, hce1, hs⟩ := iha2
    have ht2 : es1 = es ++ t := ht
    have hw1b : wfEffs es1 0 es1 = true := hw1
    have hce1b : ceOK es1 ce1 = true := hce1
    have hsb : vOK es1.length es1 s = true := hs
    have hr1 : vOK es1.length es1 (r.add s.negate) = true := by
      refine vOK_add _ _ _ _ ?_ (vOK_negate _ _ _ hsb)
      rw [ht2]
      exact vOK_mono es.length _ es t r (by simp) h3
    obtain ⟨⟨t2, ht3⟩, hw2, hce3, hr2⟩ := ihrest hw1b hce1b hr1
    refine ⟨⟨t ++ t2, ?_⟩, hw2, hce3, hr2⟩
    rw [ht3, ht2, List.append_assoc]
  | case9 a rest r es ce es1 br bes bce heq es2 iha ihrest =>
    intro h1 h2 h3
    rw [tweGo, heq]
    obtain ⟨hw1, t1, ht1⟩ := logOK_push_effect es ce h1 h2
    have iha2 := iha rfl (ceOK_new _) (vOK_zero _ _)
    rw [heq] at iha2
    obtain ⟨⟨tb, htb⟩, hwb, hceb, hsb⟩ := iha2
    have hwb2 : wfEffs bes 0 bes = true := hwb
    have hceb2 : ceOK bes bce = true := hceb
    have hsb2 : vOK bes.length bes br = true := hsb
    have hwex : wfExpr (Expr.mk (push_effect bes bce) br) = true :=
      wfExpr_flush bes bce br hwb2 hceb2 hsb2
    have hw2 : wfEffs es2 0 es2 = true := logOK_append_loop _ _ hw1 hwex
    have hLes : es2 = es ++ (t1 ++ [Effect.loop (Expr.mk (push_effect bes bce) br)]) := by
      show push_effect es ce ++ [Effect.loop (Expr.mk (push_effect bes bce) br)]
        = es ++ (t1 ++ [Effect.loop (Expr.mk (push_effect bes bce) br)])
      rw [ht1, List.append_assoc]
    have hr2 : vOK es2.length es2
        (r.add_part (ValuePart.loopResult (es2.length - 1))) = true := by
      refine vOK_add_part_n _ _ _ _ _ ?_ ?_
      · rw [hLes]
        exact vOK_mono es.length _ es _ r (by simp) h3
      · have hpos : 0 < es2.length := by
          rw [hLes]
          simp
        unfold atomOK
        rw [Bool.and_eq_true]
        constructor
        · simp
          omega
        · have hlen1 : es2.length - 1 = (push_effect es ce).length := by
            show (push_effect es ce
              ++ [Effect.loop (Expr.mk (push_effect bes bce) br)]).length - 1
              = (push_effect es ce).length
            simp
          rw [hlen1]
          exact isLoopAt_concat_loop _ _
    obtain ⟨⟨t2, ht3⟩, hw3, hce3, hr3⟩ := ihrest hw2 (ceOK_new _) hr2
    refine ⟨⟨t1 ++ [Effect.loop (Expr.mk (push_effect bes bce) br)] ++ t2, ?_⟩,
      hw3, hce3, hr3⟩
    rw [ht3, hLes]
    simp [List.append_assoc]
  | case10 a rest r es ce s es1 ce1 heq iha ihrest =>
    intro h1 h2 h3
    rw [tweGo, heq]
    have iha2 := iha h1 h2 (vOK_zero _ _)
    rw [heq] at iha2
    obtain ⟨⟨t, ht⟩, hw1, hce1, hs⟩ := iha2
    have ht2 : es1 = es ++ t := ht
    have hr1 : vOK es1.length es1 r = true := by
      rw [ht2]
      exact vOK_mono es.length _ es t r (by simp) h3
    obtain ⟨⟨t2, ht3⟩, hw2, hce3, hr2⟩ := ihrest hw1 hce1 hr1
    refine ⟨⟨t ++ t2, ?_⟩, hw2, hce3, hr2⟩
    rw [ht3, ht2, List.append_assoc]

/-- C10: in every `SubExpr` produced by `translate`, every `LoopResult i`
atom in the result points at a `LoopEffect` at a valid index `i` of that
same `SubExpr`'s log, every such atom in a queued push value of the batch
at log position `j` additionally satisfies `i < j` (the atom only occurs
in the result or in effects after its loop), and the same holds
recursively inside each nested loop body for its own log — so indices
never cross scopes. -/
theorem loop_result_indices_well_formed (ast : List Inst) :
    wfExpr (translate ast) = true := by
  rcases hh : tweGo ast Value.zero [] StackEffect.new with ⟨r, es, ce⟩
  have hm := tweGo_wf ast Value.zero [] StackEffect.new (by rw [wfEffs]) (ceOK_new _)
    (vOK_zero _ _)
  rw [hh] at hm
  obtain ⟨-, hw, hce, hr⟩ := hm
  simp only [translate, hh]
  exact wfExpr_flush es ce r hw hce hr

end Flakc
